import Mathlib

set_option maxHeartbeats 1000000

/- Verification development for the dupe-finder-gui scanning engine
   (src/scanner.rs).  Files are modelled by their byte content (a List Nat);
   paths are lists of components from the scan root's basename down; the
   SHA-256 primitive of the sha2 crate is kept abstract as a parameter
   `sha : List Nat → List Nat`, while the surrounding read loop and the hex
   encoding of the hex crate are embedded concretely. -/

/-- Claim model of `ScanConfig` (scanner.rs lines 33-39). -/
structure ScanConfig where
  buffer_size : Nat
  include_hidden : Bool
  min_file_size : Nat
  max_threads : Option Nat
deriving DecidableEq

/-- The `impl Default for ScanConfig` values (lines 41-50). -/
def defaultConfig : ScanConfig :=
  { buffer_size := 65536, include_hidden := false, min_file_size := 1,
    max_threads := none }

/-- A directory entry as yielded by the walkdir traversal.  `path` is the list
of path components from the scan root's basename down to the entry.  `content`
is the file's byte content; its length plays the role of the size reported by
`std::fs::metadata` (the mid-scan mutation race accepted by the code is out of
scope).  `metaOk` models whether `get_file_metadata` succeeds for the entry,
`readOk` whether `File::open` and the reads inside `hash_file` succeed. -/
structure Entry where
  path : List String
  isFile : Bool
  content : List Nat
  modTime : Option Nat
  metaOk : Bool
  readOk : Bool
deriving DecidableEq

/-- The size observed by `get_file_metadata` (line 120). -/
def Entry.size (e : Entry) : Nat := e.content.length

def dotStr : String := "."

def slashStr : String := "/"

def discoveryCompleteStr : String := "Discovery complete"

/-- Mirrors `is_hidden` (lines 71-76): a component name is hidden when it
starts with the dot character (`starts_with('.')` on a one-character pattern
tests the first character). -/
def is_hidden (s : String) : Bool :=
  match s.data with
  | [] => false
  | c :: _ => c = '.'

/-- Effect of `filter_entry(|e| config.include_hidden || !is_hidden(e))`
(line 135): an entry survives iff hidden filtering is off, or no component on
the path from the root's basename down to the entry is hidden (a filtered
directory prunes its whole subtree from the walk). -/
def entryVisible (cfg : ScanConfig) (e : Entry) : Bool :=
  cfg.include_hidden || e.path.all (fun c => !(is_hidden c))

/-- Phase 1 (discovery) of `scan_directory`, lines 132-154: walker errors are
dropped by `filter_map(|e| e.ok())`, non-files are skipped, entries whose
metadata cannot be read hit `continue`, and files smaller than
`config.min_file_size` are skipped.  Walk order is preserved. -/
def discover (cfg : ScanConfig) (walk : List (Option Entry)) : List Entry :=
  (((walk.filterMap id).filter (fun e => entryVisible cfg e)).filter
      (fun e => e.isFile)).filter
    (fun e => e.metaOk && decide (cfg.min_file_size ≤ e.size))

/-- `total_files` counted during discovery (lines 130, 145). -/
def total_files (cfg : ScanConfig) (walk : List (Option Entry)) : Nat :=
  (discover cfg walk).length

/-- Structural worker for `firstKeys`; the fuel argument only bounds the
recursion depth and `l.length` always suffices. -/
def firstKeysAux {κ : Type} [DecidableEq κ] : Nat → List κ → List κ
  | _, [] => []
  | 0, _ :: _ => []
  | fuel + 1, k :: rest =>
    k :: firstKeysAux fuel (rest.filter (fun x => decide (x ≠ k)))

/-- Keys of a hash map built by repeated `entry(k).or_default().push(..)`, in
first-insertion order (a deterministic stand-in for HashMap iteration order;
no claim depends on the order in which buckets are visited). -/
def firstKeys {κ : Type} [DecidableEq κ] (l : List κ) : List κ :=
  firstKeysAux l.length l

/-- Group a list by a key, preserving element order inside each bucket, as the
HashMap-of-Vec pattern of lines 129/144 and 193/205 does. -/
def bucketsBy {α κ : Type} [DecidableEq κ] (key : α → κ) (xs : List α) :
    List (κ × List α) :=
  (firstKeys (xs.map key)).map
    (fun k => (k, xs.filter (fun x => decide (key x = k))))

/-- `potential_duplicates` (lines 163-167): the size buckets that kept more
than one member. -/
def sizeBuckets (cfg : ScanConfig) (walk : List (Option Entry)) :
    List (Nat × List Entry) :=
  (bucketsBy Entry.size (discover cfg walk)).filter
    (fun b => decide (1 < b.2.length))

/-- The read loop of `hash_file` (lines 228-234): the byte stream fed to the
hasher.  Each `file.read` into the `buffer_size`-byte buffer returns
`min buffer_size remaining` bytes, and a zero-length read (empty buffer, or
end of file) breaks the loop. -/
def hashLoopAux (b : Nat) : Nat → List Nat → List Nat
  | _, [] => []
  | 0, _ :: _ => []
  | fuel + 1, c :: rest =>
    ((c :: rest).take b) ++ hashLoopAux b fuel ((c :: rest).drop b)

/-- Entry point of the read loop: a read into a zero-length buffer returns 0
bytes and breaks the loop at once; otherwise the chunks accumulate.  The fuel
`content.length` always suffices for a positive buffer. -/
def hashLoop (bufSize : Nat) (content : List Nat) : List Nat :=
  if bufSize = 0 then [] else hashLoopAux bufSize content.length content

/-- One lowercase hex digit, as produced by the hex crate: digits 0-9 map to
the characters of codes 48-57, digits 10-15 to the letters of codes 97-102. -/
def hexDigit (n : Nat) : Char := Char.ofNat (if n < 10 then 48 + n else 87 + n)

/-- Hex encoding of one byte, high nibble first. -/
def hexByte (b : Nat) : List Char :=
  [hexDigit (b / 16 % 16), hexDigit (b % 16)]

/-- `hex::encode` of a byte string (line 236). -/
def hexEncode (bs : List Nat) : String := String.mk ((bs.map hexByte).flatten)

/-- `hash_file` (lines 223-237), parameterised by the digest primitive `sha`
(the sha2 crate's SHA-256, external to this repository): opening and reading
the file fails exactly when `readOk` is false; otherwise the chunks read by
the loop are fed to the hasher and the final digest is hex-encoded. -/
def hash_file (sha : List Nat → List Nat) (cfg : ScanConfig) (e : Entry) :
    Option String :=
  if e.readOk then some (hexEncode (sha (hashLoop cfg.buffer_size e.content)))
  else none

/-- The fixed list of sensitive names in `is_critical_file` (lines 81-99),
verbatim from the source. -/
def critical_files : List String := [
  ".bashrc", ".bash_profile", ".bash_logout", ".profile", ".zshrc", ".zprofile",
  ".vimrc", ".gvimrc", ".emacs", ".emacs.d", ".config", ".local", ".cache",
  ".ssh", ".gnupg", ".aws", ".docker", ".kube", ".npm", ".pip", ".conda",
  ".env", ".gitconfig", ".hgrc", ".subversion", ".tmux.conf", ".screenrc",
  ".Xauthority", ".xinitrc", ".xsession", ".xprofile", ".xrc", ".Xresources",
  ".gtkrc", ".xmodmap", ".inputrc", ".netrc", ".lesshst", ".python_history",
  ".mysql_history", ".psql_history", ".sqlite_history", ".rvm", ".rbenv",
  ".cargo", ".rustup", ".gradle", ".m2", ".ivy2", ".sbt", ".coursier",
  ".lein", ".boot", ".clojure", ".cider", ".nrepl-history", ".calibredb",
  ".thunderbird", ".mozilla", ".chromium", ".google-chrome", ".opera",
  ".vlc", ".audacity-data", ".gimp", ".inkscape", ".blender", ".kde",
  ".gnome", ".cinnamon", ".mate", ".xfce4", ".lxde", ".fluxbox",
  ".i3", ".sway", ".bspwm", ".dwm", ".xmonad", ".herbstluftwm",
  ".config/nvim", ".config/vim", ".config/emacs", ".config/fish",
  ".config/zsh", ".config/bash", ".config/git", ".config/ssh",
  ".config/gtk-3.0", ".config/gtk-4.0", ".config/kdeglobals",
  ".config/plasma", ".config/xfce4", ".config/i3", ".config/sway"]

/-- `Path::ancestors` on a components list: the path itself, then each parent
in turn, down to the empty path. -/
def ancestorsList (p : List String) : List (List String) :=
  ((List.range (p.length + 1)).reverse).map (fun k => p.take k)

/-- `is_critical_file` (lines 78-116): false when the path has no final
component; otherwise true iff the file's own basename, or the basename of any
ancestor of the path, is a member of the fixed list. -/
def is_critical_file (path : List String) : Bool :=
  match path.getLast? with
  | none => false
  | some filename =>
    if critical_files.contains filename then true
    else
      (ancestorsList path).any (fun anc =>
        match anc.getLast? with
        | some name => critical_files.contains name
        | none => false)

/-- Basename membership test, the body of the ancestor loop of lines 107-113. -/
def basenameCritical (q : List String) : Bool :=
  match q.getLast? with
  | some name => critical_files.contains name
  | none => false

/-- `FileInfo` (lines 11-17), with paths as component lists and timestamps as
naturals. -/
structure FileInfo where
  path : List String
  size : Nat
  modified_time : Option Nat
  is_critical : Bool
deriving DecidableEq

/-- Construction of one emitted `FileInfo` (line 213): the size key of its
bucket, the discovery-time metadata, and the criticality of its path. -/
def toFileInfo (sz : Nat) (e : Entry) : FileInfo :=
  { path := e.path, size := sz, modified_time := e.modTime,
    is_critical := is_critical_file e.path }

/-- The hashing results of one size bucket zipped back against the bucket's
entries in discovery order (lines 176-191, 195): each entry is paired with its
digest when hashing succeeds; a failed file produces no pair (the
`if let Ok(hash)` of line 204). -/
def hashedPairs (sha : List Nat → List Nat) (cfg : ScanConfig)
    (bucket : List Entry) : List (String × Entry) :=
  bucket.filterMap (fun e => (hash_file sha cfg e).map (fun h => (h, e)))

/-- Lines 193-217: group one size bucket's successfully hashed members by
digest and emit every digest group with more than one member. -/
def bucketGroups (sha : List Nat → List Nat) (cfg : ScanConfig) (sz : Nat)
    (bucket : List Entry) : List (List FileInfo) :=
  ((bucketsBy Prod.fst (hashedPairs sha cfg bucket)).filter
      (fun p => decide (1 < p.2.length))).map
    (fun p => p.2.map (fun q => toFileInfo sz q.2))

/-- The `duplicates` accumulator over all candidate buckets (lines 169-218). -/
def scanGroups (sha : List Nat → List Nat) (cfg : ScanConfig)
    (walk : List (Option Entry)) : List (List FileInfo) :=
  ((sizeBuckets cfg walk).map (fun b => bucketGroups sha cfg b.1 b.2)).flatten

/-- `ScanError` (lines 52-57), with the wrapped payloads as strings. -/
inductive ScanError where
  | IoError : String → ScanError
  | WalkdirError : String → ScanError
  | HashError : String → ScanError
deriving DecidableEq

/-- `scan_directory` (lines 125-221).  The body contains no failing return:
walker errors are discarded by `filter_map(|e| e.ok())` (line 137), metadata
errors hit `continue` (line 148), hash errors only drop the file (line 204),
and the single return is `Ok(duplicates)` (line 220). -/
def scan_directory (sha : List Nat → List Nat) (cfg : ScanConfig)
    (walk : List (Option Entry)) : Except ScanError (List (List FileInfo)) :=
  Except.ok (scanGroups sha cfg walk)

/-- `ScanPhase` (lines 27-31). -/
inductive ScanPhase where
  | Discovery
  | Hashing
deriving DecidableEq

/-- `ScanProgress` (lines 19-25). -/
structure ScanProgress where
  current : Nat
  total : Nat
  current_file : String
  phase : ScanPhase
deriving DecidableEq

/-- `path.display()` on a components list. -/
def pathDisplay (p : List String) : String := String.intercalate slashStr p

/-- The files processed during the hashing phase, in processing order: the
members of each candidate bucket, bucket by bucket. -/
def candidateFiles (cfg : ScanConfig) (walk : List (Option Entry)) :
    List Entry :=
  ((sizeBuckets cfg walk).map Prod.snd).flatten

/-- The sequence of `ScanProgress` values passed to the progress callback: the
discovery-complete event of lines 156-161, followed by one event per processed
file with the running `processed_count` as `current` (lines 196-202). -/
def scan_events (cfg : ScanConfig) (walk : List (Option Entry)) :
    List ScanProgress :=
  { current := total_files cfg walk, total := total_files cfg walk,
    current_file := discoveryCompleteStr, phase := ScanPhase.Hashing } ::
  ((candidateFiles cfg walk).enum.map (fun pe =>
    { current := pe.1 + 1, total := total_files cfg walk,
      current_file := pathDisplay pe.2.path, phase := ScanPhase.Hashing }))

/-- The derived `Ord` on `Option<SystemTime>`: `None` is below every `Some`. -/
def optLe : Option Nat → Option Nat → Bool
  | none, _ => true
  | some _, none => false
  | some x, some y => decide (x ≤ y)

/-- Strict version of `optLe`. -/
def optLt : Option Nat → Option Nat → Bool
  | none, none => false
  | none, some _ => true
  | some _, none => false
  | some x, some y => decide (x < y)

/-- Fold of `Iterator::max_by_key` over `(index, key)` pairs: the running best
is replaced whenever its key is ≤ the next key, so among equal maxima the last
one wins — the documented behaviour of `max_by_key`. -/
def maxIdxAux : List (Option Nat) → Nat → Nat × Option Nat → Nat × Option Nat
  | [], _, best => best
  | a :: rest, start, best =>
    maxIdxAux rest (start + 1) (if optLe best.2 a then (start, a) else best)

/-- Index returned by `iter().enumerate().max_by_key(|(_, f)| key)`. -/
def maxByKeyIdx : List (Option Nat) → Option Nat
  | [] => none
  | a :: rest => some (maxIdxAux rest 1 (0, a)).1

/-- Fold of `Iterator::min_by_key`: the running best is replaced only when the
next key is strictly smaller, so among equal minima the first one wins. -/
def minIdxAux : List (Option Nat) → Nat → Nat × Option Nat → Nat × Option Nat
  | [], _, best => best
  | a :: rest, start, best =>
    minIdxAux rest (start + 1) (if optLt a best.2 then (start, a) else best)

/-- Index returned by `iter().enumerate().min_by_key(|(_, f)| key)`. -/
def minByKeyIdx : List (Option Nat) → Option Nat
  | [] => none
  | a :: rest => some (minIdxAux rest 1 (0, a)).1

/-- `KeepNewestStrategy::select` (lines 249-259). -/
def KeepNewest_select (files : List FileInfo) : List Bool :=
  match maxByKeyIdx (files.map (fun f => f.modified_time)) with
  | some i => (List.replicate files.length false).set i true
  | none => List.replicate files.length false

/-- `KeepOldestStrategy::select` (lines 261-271). -/
def KeepOldest_select (files : List FileInfo) : List Bool :=
  match minByKeyIdx (files.map (fun f => f.modified_time)) with
  | some i => (List.replicate files.length false).set i true
  | none => List.replicate files.length false

/-- `KeepAllStrategy::select` (lines 273-277). -/
def KeepAll_select (files : List FileInfo) : List Bool :=
  List.replicate files.length true

/-- `KeepNoneStrategy::select` (lines 279-283). -/
def KeepNone_select (files : List FileInfo) : List Bool :=
  List.replicate files.length false

/-- Whether some member of a group carries the given path. -/
def groupHasPath (p : List String) (g : List FileInfo) : Bool :=
  g.any (fun f => decide (f.path = p))

/-- The size bucket a discovered file of size `sz` lands in. -/
def sizeBucketOf (cfg : ScanConfig) (walk : List (Option Entry)) (sz : Nat) :
    List Entry :=
  (discover cfg walk).filter (fun e => decide (Entry.size e = sz))

/-- The digest subgroup with digest `h` inside one size bucket. -/
def hashGroupOf (sha : List Nat → List Nat) (cfg : ScanConfig)
    (B : List Entry) (h : String) : List (String × Entry) :=
  (hashedPairs sha cfg B).filter (fun q => decide (q.1 = h))

/-- Concrete digest used by witnesses: the identity on byte strings. -/
def shaI : List Nat → List Nat := fun c => c

def entX : Entry :=
  { path := ["r", "x"], isFile := true, content := [0], modTime := some 0,
    metaOk := true, readOk := true }

def entY : Entry :=
  { path := ["r", "y"], isFile := true, content := [0], modTime := some 1,
    metaOk := true, readOk := true }

def entZ : Entry :=
  { path := ["r", "z"], isFile := true, content := [1], modTime := some 2,
    metaOk := true, readOk := true }

/-- Three discovered files: two with identical content, one unique. -/
def walkPair : List (Option Entry) := [some entX, some entY, some entZ]

def entP : Entry :=
  { path := ["r", "p"], isFile := true, content := [0], modTime := some 0,
    metaOk := true, readOk := true }

def entQ : Entry :=
  { path := ["r", "q"], isFile := true, content := [5], modTime := some 1,
    metaOk := true, readOk := true }

/-- Two same-size files with different content. -/
def walkSameSize : List (Option Entry) := [some entP, some entQ]

def entE1 : Entry :=
  { path := ["r", "e1"], isFile := true, content := [], modTime := some 0,
    metaOk := true, readOk := true }

def entE2 : Entry :=
  { path := ["r", "e2"], isFile := true, content := [], modTime := some 1,
    metaOk := true, readOk := true }

/-- Two empty files with identical (empty) content. -/
def walkEmptyPair : List (Option Entry) := [some entE1, some entE2]

def entF1 : Entry :=
  { path := ["r", "f1"], isFile := true, content := [0], modTime := some 0,
    metaOk := true, readOk := true }

def entF2 : Entry :=
  { path := ["r", "f2"], isFile := true, content := [0], modTime := some 1,
    metaOk := true, readOk := false }

/-- Two content-identical same-size files, hashing of the second fails. -/
def walkHashFail : List (Option Entry) := [some entF1, some entF2]

/-- A configuration with a zero read buffer. -/
def cfgBuf0 : ScanConfig :=
  { buffer_size := 0, include_hidden := false, min_file_size := 1,
    max_threads := none }

def sshPath : List String := ["~", ".ssh", "config"]

def fT1 : FileInfo :=
  { path := ["a"], size := 1, modified_time := some 5, is_critical := false }

def fT2 : FileInfo :=
  { path := ["b"], size := 1, modified_time := some 5, is_critical := false }

def fN1 : FileInfo :=
  { path := ["a"], size := 1, modified_time := none, is_critical := false }

def fN2 : FileInfo :=
  { path := ["b"], size := 1, modified_time := none, is_critical := false }

def fK1 : FileInfo :=
  { path := ["a"], size := 1, modified_time := some 3, is_critical := false }

def fK2 : FileInfo :=
  { path := ["b"], size := 1, modified_time := some 7, is_critical := false }

/- ------------------------------------------------------------------ -/
/- Helper lemmas                                                       -/
/- ------------------------------------------------------------------ -/

theorem hashLoopAux_id (b : Nat) (hb : 0 < b) :
    ∀ (fuel : Nat) (content : List Nat), content.length ≤ fuel →
      hashLoopAux b fuel content = content := by
  intro fuel
  induction fuel with
  | zero =>
    intro content hc
    cases content with
    | nil => rfl
    | cons c rest => simp at hc
  | succ fuel ih =>
    intro content hc
    cases content with
    | nil => rfl
    | cons c rest =>
      have hdrop : ((c :: rest).drop b).length ≤ fuel := by
        simp only [List.length_drop, List.length_cons]
        simp only [List.length_cons] at hc
        omega
      show ((c :: rest).take b) ++ hashLoopAux b fuel ((c :: rest).drop b) = c :: rest
      rw [ih _ hdrop, List.take_append_drop]

/-- With a positive buffer, the loop feeds exactly the file's content to the
hasher. -/
theorem hashLoop_id (b : Nat) (hb : 0 < b) (content : List Nat) :
    hashLoop b content = content := by
  unfold hashLoop
  rw [if_neg (by omega)]
  exact hashLoopAux_id b hb content.length content (Nat.le_refl _)

/-- With a zero buffer, the first read returns no bytes and the loop breaks
immediately. -/
theorem hashLoop_zero (content : List Nat) : hashLoop 0 content = [] := rfl

theorem optLe_refl (a : Option Nat) : optLe a a = true := by
  cases a <;> simp [optLe]

theorem optLe_trans {a b c : Option Nat} (h1 : optLe a b = true)
    (h2 : optLe b c = true) : optLe a c = true := by
  cases a <;> cases b <;> cases c <;> simp_all [optLe] <;> omega

theorem optLe_total {a b : Option Nat} (h : optLe a b = false) :
    optLe b a = true := by
  cases a <;> cases b <;> simp_all [optLe] <;> omega

theorem optLe_none {a : Option Nat} (h : optLe a none = true) : a = none := by
  cases a <;> simp_all [optLe]

theorem optLt_le {a b : Option Nat} (h : optLt a b = true) : optLe a b = true := by
  cases a <;> cases b <;> simp_all [optLe, optLt] <;> omega

theorem optLt_false_le {a b : Option Nat} (h : optLt a b = false) :
    optLe b a = true := by
  cases a <;> cases b <;> simp_all [optLe, optLt] <;> omega

theorem optLt_not_le {a b : Option Nat} (h : optLt a b = true) :
    optLe b a = false := by
  cases a <;> cases b <;> simp_all [optLe, optLt] <;> omega

theorem optLt_of_lt_of_le {a b c : Option Nat} (h1 : optLt a b = true)
    (h2 : optLe b c = true) : optLt a c = true := by
  cases a <;> cases b <;> cases c <;> simp_all [optLe, optLt] <;> omega

theorem firstKeysAux_mem {κ : Type} [DecidableEq κ] (a : κ) :
    ∀ (fuel : Nat) (l : List κ), l.length ≤ fuel →
      (a ∈ firstKeysAux fuel l ↔ a ∈ l) := by
  intro fuel
  induction fuel with
  | zero =>
    intro l hl
    cases l with
    | nil => simp [firstKeysAux]
    | cons k rest => simp at hl
  | succ fuel ih =>
    intro l hl
    cases l with
    | nil => simp [firstKeysAux]
    | cons k rest =>
      have hlen : (rest.filter (fun x => decide (x ≠ k))).length ≤ fuel := by
        have := List.length_filter_le (fun x => decide (x ≠ k)) rest
        simp only [List.length_cons] at hl
        omega
      show a ∈ k :: firstKeysAux fuel (rest.filter (fun x => decide (x ≠ k))) ↔ _
      by_cases hak : a = k
      · subst hak; simp
      · simp only [List.mem_cons, ih _ hlen, List.mem_filter]
        constructor
        · rintro (h | ⟨h, _⟩)
          · exact Or.inl h
          · exact Or.inr h
        · rintro (h | h)
          · exact Or.inl h
          · exact Or.inr ⟨h, by simpa using hak⟩

theorem mem_firstKeys {κ : Type} [DecidableEq κ] {a : κ} {l : List κ} :
    a ∈ firstKeys l ↔ a ∈ l :=
  firstKeysAux_mem a l.length l (Nat.le_refl _)

theorem firstKeysAux_nodup {κ : Type} [DecidableEq κ] :
    ∀ (fuel : Nat) (l : List κ), l.length ≤ fuel →
      (firstKeysAux fuel l).Nodup := by
  intro fuel
  induction fuel with
  | zero =>
    intro l hl
    cases l with
    | nil => simp [firstKeysAux]
    | cons k rest => simp at hl
  | succ fuel ih =>
    intro l hl
    cases l with
    | nil => simp [firstKeysAux]
    | cons k rest =>
      have hlen : (rest.filter (fun x => decide (x ≠ k))).length ≤ fuel := by
        have := List.length_filter_le (fun x => decide (x ≠ k)) rest
        simp only [List.length_cons] at hl
        omega
      show (k :: firstKeysAux fuel (rest.filter (fun x => decide (x ≠ k)))).Nodup
      refine List.nodup_cons.mpr ⟨?_, ih _ hlen⟩
      intro hmem
      have := (firstKeysAux_mem k fuel _ hlen).mp hmem
      rcases List.mem_filter.mp this with ⟨_, hk⟩
      simp at hk

theorem nodup_firstKeys {κ : Type} [DecidableEq κ] (l : List κ) :
    (firstKeys l).Nodup :=
  firstKeysAux_nodup l.length l (Nat.le_refl _)

theorem count_true_set_replicate :
    ∀ (n i : Nat), i < n →
      (((List.replicate n false).set i true).count true = 1) := by
  intro n
  induction n with
  | zero => intro i h; omega
  | succ n ih =>
    intro i h
    cases i with
    | zero =>
      simp only [List.replicate_succ, List.set_cons_zero]
      simp [List.count_cons, List.count_replicate]
    | succ i =>
      simp only [List.replicate_succ, List.set_cons_succ]
      rw [List.count_cons]
      simp only [ih i (by omega)]
      simp

theorem bool_false_or_true (b : Bool) : b = false ∨ b = true := by
  cases b
  · exact Or.inl rfl
  · exact Or.inr rfl

theorem maxIdxAux_spec :
    ∀ (k : List (Option Nat)) (start : Nat) (best : Nat × Option Nat),
      (maxIdxAux k start best = best ∧
        ∀ j, ∀ hj : j < k.length, optLe best.2 (k.get ⟨j, hj⟩) = false)
      ∨ (∃ j, ∃ hj : j < k.length,
          maxIdxAux k start best = (start + j, k.get ⟨j, hj⟩) ∧
          optLe best.2 (k.get ⟨j, hj⟩) = true ∧
          (∀ l, ∀ hl : l < k.length,
            optLe (k.get ⟨l, hl⟩) (k.get ⟨j, hj⟩) = true) ∧
          (∀ l, ∀ hl : l < k.length, j < l →
            optLe (k.get ⟨j, hj⟩) (k.get ⟨l, hl⟩) = false)) := by
  intro k
  induction k with
  | nil =>
    intro start best
    left
    exact ⟨rfl, fun j hj => absurd hj (by simp)⟩
  | cons a rest ih =>
    intro start best
    rcases bool_false_or_true (optLe best.2 a) with hc | hc
    · rcases ih (start + 1) best with ⟨heq, hall⟩ | ⟨j, hj, heq, hcond, hdom, hlast⟩
      · left
        constructor
        · show maxIdxAux rest (start + 1) (if optLe best.2 a then (start, a) else best) = best
          rw [if_neg (by simp [hc]), heq]
        · intro j hj
          cases j with
          | zero => exact hc
          | succ j => exact hall j (by simpa using hj)
      · right
        refine ⟨j + 1, by simpa using Nat.succ_lt_succ hj, ?_, hcond, ?_, ?_⟩
        · show maxIdxAux rest (start + 1) (if optLe best.2 a then (start, a) else best)
            = (start + (j + 1), rest.get ⟨j, hj⟩)
          rw [if_neg (by simp [hc]), heq]
          have harith : start + 1 + j = start + (j + 1) := by omega
          rw [harith]
        · intro l hl
          cases l with
          | zero => exact optLe_trans (optLe_total hc) hcond
          | succ l => exact hdom l (by simpa using hl)
        · intro l hl hgt
          cases l with
          | zero => omega
          | succ l => exact hlast l (by simpa using hl) (by omega)
    · rcases ih (start + 1) (start, a) with ⟨heq, hall⟩ | ⟨j, hj, heq, hcond, hdom, hlast⟩
      · right
        refine ⟨0, by simp, ?_, hc, ?_, ?_⟩
        · show maxIdxAux rest (start + 1) (if optLe best.2 a then (start, a) else best)
            = (start + 0, a)
          rw [if_pos hc, heq]
          simp
        · intro l hl
          cases l with
          | zero => exact optLe_refl a
          | succ l => exact optLe_total (hall l (by simpa using hl))
        · intro l hl hgt
          cases l with
          | zero => omega
          | succ l => exact hall l (by simpa using hl)
      · right
        refine ⟨j + 1, by simpa using Nat.succ_lt_succ hj, ?_,
          optLe_trans hc hcond, ?_, ?_⟩
        · show maxIdxAux rest (start + 1) (if optLe best.2 a then (start, a) else best)
            = (start + (j + 1), rest.get ⟨j, hj⟩)
          rw [if_pos hc, heq]
          have harith : start + 1 + j = start + (j + 1) := by omega
          rw [harith]
        · intro l hl
          cases l with
          | zero => exact hcond
          | succ l => exact hdom l (by simpa using hl)
        · intro l hl hgt
          cases l with
          | zero => omega
          | succ l => exact hlast l (by simpa using hl) (by omega)

theorem minIdxAux_spec :
    ∀ (k : List (Option Nat)) (start : Nat) (best : Nat × Option Nat),
      (minIdxAux k start best = best ∧
        ∀ j, ∀ hj : j < k.length, optLt (k.get ⟨j, hj⟩) best.2 = false)
      ∨ (∃ j, ∃ hj : j < k.length,
          minIdxAux k start best = (start + j, k.get ⟨j, hj⟩) ∧
          optLt (k.get ⟨j, hj⟩) best.2 = true ∧
          (∀ l, ∀ hl : l < k.length,
            optLe (k.get ⟨j, hj⟩) (k.get ⟨l, hl⟩) = true) ∧
          (∀ l, ∀ hl : l < k.length, l < j →
            optLe (k.get ⟨l, hl⟩) (k.get ⟨j, hj⟩) = false)) := by
  intro k
  induction k with
  | nil =>
    intro start best
    left
    exact ⟨rfl, fun j hj => absurd hj (by simp)⟩
  | cons a rest ih =>
    intro start best
    rcases bool_false_or_true (optLt a best.2) with hc | hc
    · rcases ih (start + 1) best with ⟨heq, hall⟩ | ⟨j, hj, heq, hcond, hdom, hlast⟩
      · left
        constructor
        · show minIdxAux rest (start + 1) (if optLt a best.2 then (start, a) else best) = best
          rw [if_neg (by simp [hc]), heq]
        · intro j hj
          cases j with
          | zero => exact hc
          | succ j => exact hall j (by simpa using hj)
      · right
        refine ⟨j + 1, by simpa using Nat.succ_lt_succ hj, ?_, hcond, ?_, ?_⟩
        · show minIdxAux rest (start + 1) (if optLt a best.2 then (start, a) else best)
            = (start + (j + 1), rest.get ⟨j, hj⟩)
          rw [if_neg (by simp [hc]), heq]
          have harith : start + 1 + j = start + (j + 1) := by omega
          rw [harith]
        · intro l hl
          cases l with
          | zero => exact optLe_trans (optLt_le hcond) (optLt_false_le hc)
          | succ l => exact hdom l (by simpa using hl)
        · intro l hl hlt
          cases l with
          | zero =>
            exact optLt_not_le (optLt_of_lt_of_le hcond (optLt_false_le hc))
          | succ l => exact hlast l (by simpa using hl) (by omega)
    · rcases ih (start + 1) (start, a) with ⟨heq, hall⟩ | ⟨j, hj, heq, hcond, hdom, hlast⟩
      · right
        refine ⟨0, by simp, ?_, hc, ?_, ?_⟩
        · show minIdxAux rest (start + 1) (if optLt a best.2 then (start, a) else best)
            = (start + 0, a)
          rw [if_pos hc, heq]
          simp
        · intro l hl
          cases l with
          | zero => exact optLe_refl a
          | succ l => exact optLt_false_le (hall l (by simpa using hl))
        · intro l hl hlt
          omega
      · right
        refine ⟨j + 1, by simpa using Nat.succ_lt_succ hj, ?_,
          optLt_of_lt_of_le hcond (optLt_le hc), ?_, ?_⟩
        · show minIdxAux rest (start + 1) (if optLt a best.2 then (start, a) else best)
            = (start + (j + 1), rest.get ⟨j, hj⟩)
          rw [if_pos hc, heq]
          have harith : start + 1 + j = start + (j + 1) := by omega
          rw [harith]
        · intro l hl
          cases l with
          | zero => exact optLt_le hcond
          | succ l => exact hdom l (by simpa using hl)
        · intro l hl hlt
          cases l with
          | zero => exact optLt_not_le hcond
          | succ l => exact hlast l (by simpa using hl) (by omega)

theorem maxByKeyIdx_spec (keys : List (Option Nat)) (hne : keys ≠ []) :
    ∃ i, ∃ hi : i < keys.length, maxByKeyIdx keys = some i ∧
      (∀ j, ∀ hj : j < keys.length,
        optLe (keys.get ⟨j, hj⟩) (keys.get ⟨i, hi⟩) = true) ∧
      (∀ j, ∀ hj : j < keys.length, i < j →
        optLe (keys.get ⟨i, hi⟩) (keys.get ⟨j, hj⟩) = false) := by
  cases keys with
  | nil => exact absurd rfl hne
  | cons a rest =>
    rcases maxIdxAux_spec rest 1 (0, a) with ⟨heq, hall⟩ | ⟨j, hj, heq, hcond, hdom, hlast⟩
    · refine ⟨0, by simp, ?_, ?_, ?_⟩
      · show some (maxIdxAux rest 1 (0, a)).1 = some 0
        rw [heq]
      · intro l hl
        cases l with
        | zero => exact optLe_refl a
        | succ l => exact optLe_total (hall l (by simpa using hl))
      · intro l hl hgt
        cases l with
        | zero => omega
        | succ l => exact hall l (by simpa using hl)
    · refine ⟨j + 1, by simpa using Nat.succ_lt_succ hj, ?_, ?_, ?_⟩
      · show some (maxIdxAux rest 1 (0, a)).1 = some (j + 1)
        rw [heq]
        simp only [Option.some.injEq]
        omega
      · intro l hl
        cases l with
        | zero => exact hcond
        | succ l => exact hdom l (by simpa using hl)
      · intro l hl hgt
        cases l with
        | zero => omega
        | succ l => exact hlast l (by simpa using hl) (by omega)

theorem minByKeyIdx_spec (keys : List (Option Nat)) (hne : keys ≠ []) :
    ∃ i, ∃ hi : i < keys.length, minByKeyIdx keys = some i ∧
      (∀ j, ∀ hj : j < keys.length,
        optLe (keys.get ⟨i, hi⟩) (keys.get ⟨j, hj⟩) = true) ∧
      (∀ j, ∀ hj : j < keys.length, j < i →
        optLe (keys.get ⟨j, hj⟩) (keys.get ⟨i, hi⟩) = false) := by
  cases keys with
  | nil => exact absurd rfl hne
  | cons a rest =>
    rcases minIdxAux_spec rest 1 (0, a) with ⟨heq, hall⟩ | ⟨j, hj, heq, hcond, hdom, hlast⟩
    · refine ⟨0, by simp, ?_, ?_, ?_⟩
      · show some (minIdxAux rest 1 (0, a)).1 = some 0
        rw [heq]
      · intro l hl
        cases l with
        | zero => exact optLe_refl a
        | succ l => exact optLt_false_le (hall l (by simpa using hl))
      · intro l hl hlt
        omega
    · refine ⟨j + 1, by simpa using Nat.succ_lt_succ hj, ?_, ?_, ?_⟩
      · show some (minIdxAux rest 1 (0, a)).1 = some (j + 1)
        rw [heq]
        simp only [Option.some.injEq]
        omega
      · intro l hl
        cases l with
        | zero => exact optLt_le hcond
        | succ l => exact hdom l (by simpa using hl)
      · intro l hl hlt
        cases l with
        | zero => exact optLt_not_le hcond
        | succ l => exact hlast l (by simpa using hl) (by omega)

theorem get_map_mt :
    ∀ (files : List FileInfo) (j : Nat)
      (hjk : j < (files.map (fun f => f.modified_time)).length)
      (hjf : j < files.length),
      (files.map (fun f => f.modified_time)).get ⟨j, hjk⟩
        = (files.get ⟨j, hjf⟩).modified_time := by
  intro files
  induction files with
  | nil => intro j hjk hjf; simp at hjf
  | cons f fs ih =>
    intro j hjk hjf
    cases j with
    | zero => rfl
    | succ j => exact ih j (by simpa using hjk) (by simpa using hjf)

/- ------------------------------------------------------------------ -/
/- Claims C5 and C6: selection strategies                              -/
/- ------------------------------------------------------------------ -/

/-- Claim C5, amended: on a non-empty group `KeepNewest_select` marks exactly
one file, holding a maximal `modified_time` under the order that puts a
missing timestamp below every present one, and a file with missing timestamp
is chosen as newest only when every file of the group lacks a timestamp (not
never, as claimed); dually `KeepOldest_select` marks exactly one file, holding
a minimal `modified_time`, and whenever some file lacks a timestamp the chosen
oldest file lacks one (the missing value is favored as oldest). -/
theorem C5_selection_extremes (files : List FileInfo) (hne : files ≠ []) :
    (∃ i, ∃ hi : i < files.length,
      KeepNewest_select files = (List.replicate files.length false).set i true ∧
      (KeepNewest_select files).count true = 1 ∧
      (∀ j, ∀ hj : j < files.length,
        optLe ((files.get ⟨j, hj⟩).modified_time)
          ((files.get ⟨i, hi⟩).modified_time) = true) ∧
      ((∃ f, f ∈ files ∧ f.modified_time ≠ none) →
        (files.get ⟨i, hi⟩).modified_time ≠ none)) ∧
    (∃ m, ∃ hm : m < files.length,
      KeepOldest_select files = (List.replicate files.length false).set m true ∧
      (KeepOldest_select files).count true = 1 ∧
      (∀ j, ∀ hj : j < files.length,
        optLe ((files.get ⟨m, hm⟩).modified_time)
          ((files.get ⟨j, hj⟩).modified_time) = true) ∧
      ((∃ f, f ∈ files ∧ f.modified_time = none) →
        (files.get ⟨m, hm⟩).modified_time = none)) := by
  have hkne : files.map (fun f => f.modified_time) ≠ [] := by
    cases files with
    | nil => exact absurd rfl hne
    | cons f fs => simp
  constructor
  · obtain ⟨i, hik, hmax, hdom, _⟩ :=
      maxByKeyIdx_spec (files.map (fun f => f.modified_time)) hkne
    have hif : i < files.length := by simpa using hik
    have hsel : KeepNewest_select files
        = (List.replicate files.length false).set i true := by
      unfold KeepNewest_select
      rw [hmax]
    refine ⟨i, hif, hsel, ?_, ?_, ?_⟩
    · rw [hsel]
      exact count_true_set_replicate files.length i hif
    · intro j hj
      have h := hdom j (by simpa using hj)
      rwa [get_map_mt files j _ hj, get_map_mt files i _ hif] at h
    · rintro ⟨f, hf, hfn⟩ hni
      obtain ⟨⟨j, hj⟩, hget⟩ := List.mem_iff_get.mp hf
      have h := hdom j (by simpa using hj)
      rw [get_map_mt files j _ hj, get_map_mt files i _ hif, hget, hni] at h
      exact hfn (optLe_none h)
  · obtain ⟨m, hmk, hmin, hdom, _⟩ :=
      minByKeyIdx_spec (files.map (fun f => f.modified_time)) hkne
    have hmf : m < files.length := by simpa using hmk
    have hsel : KeepOldest_select files
        = (List.replicate files.length false).set m true := by
      unfold KeepOldest_select
      rw [hmin]
    refine ⟨m, hmf, hsel, ?_, ?_, ?_⟩
    · rw [hsel]
      exact count_true_set_replicate files.length m hmf
    · intro j hj
      have h := hdom j (by simpa using hj)
      rwa [get_map_mt files j _ hj, get_map_mt files m _ hmf] at h
    · rintro ⟨f, hf, hfn⟩
      obtain ⟨⟨j, hj⟩, hget⟩ := List.mem_iff_get.mp hf
      have h := hdom j (by simpa using hj)
      rw [get_map_mt files j _ hj, get_map_mt files m _ hmf, hget, hfn] at h
      exact optLe_none h

/-- Claim C5, counterexample to the claim as stated: in a group whose two
files both lack a `modified_time`, `KeepNewest_select` still marks one of
them, so a file with unknown modification time is chosen as newest. -/
theorem C5_counterexample :
    KeepNewest_select [fN1, fN2] = [false, true] ∧
    fN1.modified_time = none ∧ fN2.modified_time = none := by
  decide

/-- Witness for C5 at a concrete two-element group with distinct known
timestamps. -/
theorem C5_selection_extremes_witness :
    (KeepNewest_select [fK1, fK2]).count true = 1 ∧
    (KeepOldest_select [fK1, fK2]).count true = 1 := by
  obtain ⟨⟨i, hi, hset, hcnt, _, _⟩, ⟨m, hm, hset2, hcnt2, _, _⟩⟩ :=
    C5_selection_extremes [fK1, fK2] (by simp)
  exact ⟨hcnt, hcnt2⟩

/-- Claim C6, amended: when several files share the extreme timestamp,
`KeepNewest_select` marks the last-encountered file holding the maximal
`modified_time` (every later file is strictly below it), while
`KeepOldest_select` marks the first-encountered file holding the minimal
`modified_time` (every earlier file is strictly above it); the
first-encountered rule claimed for both holds only for `KeepOldest`. -/
theorem C6_tie_break (files : List FileInfo) (hne : files ≠ []) :
    (∃ i, ∃ hi : i < files.length,
      KeepNewest_select files = (List.replicate files.length false).set i true ∧
      (∀ j, ∀ hj : j < files.length,
        optLe ((files.get ⟨j, hj⟩).modified_time)
          ((files.get ⟨i, hi⟩).modified_time) = true) ∧
      (∀ j, ∀ hj : j < files.length, i < j →
        optLe ((files.get ⟨i, hi⟩).modified_time)
          ((files.get ⟨j, hj⟩).modified_time) = false)) ∧
    (∃ m, ∃ hm : m < files.length,
      KeepOldest_select files = (List.replicate files.length false).set m true ∧
      (∀ j, ∀ hj : j < files.length,
        optLe ((files.get ⟨m, hm⟩).modified_time)
          ((files.get ⟨j, hj⟩).modified_time) = true) ∧
      (∀ j, ∀ hj : j < files.length, j < m →
        optLe ((files.get ⟨j, hj⟩).modified_time)
          ((files.get ⟨m, hm⟩).modified_time) = false)) := by
  have hkne : files.map (fun f => f.modified_time) ≠ [] := by
    cases files with
    | nil => exact absurd rfl hne
    | cons f fs => simp
  constructor
  · obtain ⟨i, hik, hmax, hdom, hlast⟩ :=
      maxByKeyIdx_spec (files.map (fun f => f.modified_time)) hkne
    have hif : i < files.length := by simpa using hik
    refine ⟨i, hif, ?_, ?_, ?_⟩
    · unfold KeepNewest_select
      rw [hmax]
    · intro j hj
      have h := hdom j (by simpa using hj)
      rwa [get_map_mt files j _ hj, get_map_mt files i _ hif] at h
    · intro j hj hij
      have h := hlast j (by simpa using hj) hij
      rwa [get_map_mt files i _ hif, get_map_mt files j _ hj] at h
  · obtain ⟨m, hmk, hmin, hdom, hfirst⟩ :=
      minByKeyIdx_spec (files.map (fun f => f.modified_time)) hkne
    have hmf : m < files.length := by simpa using hmk
    refine ⟨m, hmf, ?_, ?_, ?_⟩
    · unfold KeepOldest_select
      rw [hmin]
    · intro j hj
      have h := hdom j (by simpa using hj)
      rwa [get_map_mt files m _ hmf, get_map_mt files j _ hj] at h
    · intro j hj hjm
      have h := hfirst j (by simpa using hj) hjm
      rwa [get_map_mt files j _ hj, get_map_mt files m _ hmf] at h

/-- Claim C6, counterexample to the claim as stated: two files with the same
`modified_time`; `KeepNewest_select` marks the second (last-encountered) one,
not the first-encountered one. -/
theorem C6_counterexample :
    KeepNewest_select [fT1, fT2] = [false, true] ∧
    fT1.modified_time = fT2.modified_time := by
  decide

/-- Witness for C6 at a concrete tied two-element group: the amended theorem
forces the last-encountered maximal file for `KeepNewest` and the
first-encountered minimal file for `KeepOldest`. -/
theorem C6_tie_break_witness :
    KeepNewest_select [fT1, fT2] = (List.replicate 2 false).set 1 true ∧
    KeepOldest_select [fT1, fT2] = (List.replicate 2 false).set 0 true := by
  obtain ⟨⟨i, hi, hset, hdom, hlast⟩, ⟨m, hm, hset2, hdom2, hfirst⟩⟩ :=
    C6_tie_break [fT1, fT2] (by simp)
  constructor
  · have hi1 : i = 1 := by
      have hi2 : i < 2 := by simpa using hi
      have hcases : i = 0 ∨ i = 1 := by omega
      rcases hcases with h0 | h1
      · subst h0
        have h := hlast 1 (by simp) (by omega)
        simp [fT1, fT2, optLe] at h
      · exact h1
    subst hi1
    simpa using hset
  · have hm0 : m = 0 := by
      have hm2 : m < 2 := by simpa using hm
      have hcases : m = 0 ∨ m = 1 := by omega
      rcases hcases with h0 | h1
      · exact h0
      · subst h1
        have h := hfirst 0 (by simp) (by omega)
        simp [fT1, fT2, optLe] at h
    subst hm0
    simpa using hset2

/- ------------------------------------------------------------------ -/
/- Claim C7: the hashing read loop                                     -/
/- ------------------------------------------------------------------ -/

/-- Claim C7: for every readable file and every positive `buffer_size`,
`hash_file` reads the file in `buffer_size`-byte chunks to end of file and
returns the hex-encoded digest of the full byte content — a value that
depends only on the content (never on metadata) and is the same for every
positive buffer size. -/
theorem C7_hash_full_content (sha : List Nat → List Nat) (cfg : ScanConfig)
    (e : Entry) (hread : e.readOk = true) (hbuf : 0 < cfg.buffer_size) :
    hash_file sha cfg e = some (hexEncode (sha e.content)) := by
  unfold hash_file
  rw [if_pos hread, hashLoop_id cfg.buffer_size hbuf e.content]

/-- Witness for C7 at a concrete one-byte file and the default 64KiB buffer. -/
theorem C7_hash_full_content_witness :
    hash_file shaI defaultConfig entX = some (hexEncode (shaI entX.content)) :=
  C7_hash_full_content shaI defaultConfig entX rfl (by decide)

/- ------------------------------------------------------------------ -/
/- Scan pipeline helper lemmas                                         -/
/- ------------------------------------------------------------------ -/

theorem mem_bucketsBy_elim {α κ : Type} [DecidableEq κ] {key : α → κ}
    {xs : List α} {p : κ × List α} (hp : p ∈ bucketsBy key xs) :
    p.2 = xs.filter (fun x => decide (key x = p.1)) ∧ p.1 ∈ xs.map key := by
  unfold bucketsBy at hp
  rcases List.mem_map.mp hp with ⟨k, hk, rfl⟩
  exact ⟨rfl, mem_firstKeys.mp hk⟩

theorem mem_bucketsBy_intro {α κ : Type} [DecidableEq κ] {key : α → κ}
    {xs : List α} {k : κ} (hk : k ∈ xs.map key) :
    (k, xs.filter (fun x => decide (key x = k))) ∈ bucketsBy key xs := by
  unfold bucketsBy
  exact List.mem_map.mpr ⟨k, mem_firstKeys.mpr hk, rfl⟩

theorem bucketsBy_keys_nodup {α κ : Type} [DecidableEq κ] (key : α → κ)
    (xs : List α) : ((bucketsBy key xs).map Prod.fst).Nodup := by
  unfold bucketsBy
  rw [List.map_map]
  have hcomp :
      (Prod.fst ∘ fun k => (k, xs.filter (fun x => decide (key x = k))))
        = fun k => k := rfl
  rw [hcomp, List.map_id_fun']
  exact nodup_firstKeys _

theorem mem_sizeBuckets_iff {cfg : ScanConfig} {walk : List (Option Entry)}
    {sz : Nat} {B : List Entry} :
    (sz, B) ∈ sizeBuckets cfg walk ↔
      sz ∈ (discover cfg walk).map Entry.size ∧
      B = sizeBucketOf cfg walk sz ∧ 1 < B.length := by
  unfold sizeBuckets sizeBucketOf
  constructor
  · intro hmem
    rcases List.mem_filter.mp hmem with ⟨hbk, hlen⟩
    rcases mem_bucketsBy_elim hbk with ⟨hfil, hkey⟩
    exact ⟨hkey, hfil, by simpa using hlen⟩
  · rintro ⟨hkey, rfl, hlen⟩
    exact List.mem_filter.mpr ⟨mem_bucketsBy_intro hkey, by simpa using hlen⟩

theorem mem_hashedPairs_iff {sha : List Nat → List Nat} {cfg : ScanConfig}
    {B : List Entry} {h : String} {e : Entry} :
    (h, e) ∈ hashedPairs sha cfg B ↔
      e ∈ B ∧ hash_file sha cfg e = some h := by
  unfold hashedPairs
  rw [List.mem_filterMap]
  constructor
  · rintro ⟨e2, he2, hmap⟩
    rcases hh : hash_file sha cfg e2 with _ | h2
    · rw [hh] at hmap
      simp at hmap
    · rw [hh] at hmap
      simp only [Option.map_some', Option.some.injEq, Prod.mk.injEq] at hmap
      rcases hmap with ⟨hh2, he⟩
      subst hh2
      subst he
      exact ⟨he2, hh⟩
  · rintro ⟨he, hh⟩
    refine ⟨e, he, ?_⟩
    rw [hh]
    rfl

theorem hashedPairs_snd (sha : List Nat → List Nat) (cfg : ScanConfig)
    (B : List Entry) :
    (hashedPairs sha cfg B).map Prod.snd = B.filter (fun e => e.readOk) := by
  induction B with
  | nil => rfl
  | cons e B ih =>
    rcases bool_false_or_true e.readOk with hre | hre
    · have hhf : hash_file sha cfg e = none := by
        unfold hash_file
        rw [if_neg (by simp [hre])]
      show ((hashedPairs sha cfg (e :: B))).map Prod.snd = _
      unfold hashedPairs
      rw [List.filterMap_cons, hhf]
      simp only [Option.map_none']
      rw [List.filter_cons_of_neg (by simp [hre])]
      exact ih
    · have hhf : hash_file sha cfg e
          = some (hexEncode (sha (hashLoop cfg.buffer_size e.content))) := by
        unfold hash_file
        rw [if_pos hre]
      unfold hashedPairs
      rw [List.filterMap_cons, hhf]
      simp only [Option.map_some']
      rw [List.filter_cons_of_pos (by simp [hre])]
      rw [List.map_cons]
      exact congrArg (List.cons e) ih

theorem two_mem_lt_length {α : Type} {l : List α} {x y : α}
    (hx : x ∈ l) (hy : y ∈ l) (hxy : x ≠ y) : 1 < l.length := by
  cases l with
  | nil => simp at hx
  | cons a l =>
    cases l with
    | nil =>
      rcases List.mem_singleton.mp hx with rfl
      rcases List.mem_singleton.mp hy with rfl
      exact absurd rfl hxy
    | cons b l2 => simp only [List.length_cons]; omega

theorem exists_ne_of_nodup {α : Type} {l : List α} (hnd : l.Nodup)
    (hlen : 1 < l.length) {x : α} (hx : x ∈ l) : ∃ y, y ∈ l ∧ y ≠ x := by
  cases l with
  | nil => simp at hx
  | cons a l =>
    cases l with
    | nil => simp at hlen
    | cons b l2 =>
      have hab : a ≠ b := by
        intro hab
        subst hab
        exact (List.nodup_cons.mp hnd).1 (List.mem_cons_self a l2)
      by_cases hxa : x = a
      · exact ⟨b, by simp, fun hbx => hab ((hbx.trans hxa).symm)⟩
      · exact ⟨a, by simp, fun hax => hxa hax.symm⟩

theorem length_filter_eq_one_of_unique_key {κ β : Type} [DecidableEq κ]
    (p : κ × β → Bool) (k0 : κ) :
    ∀ (L : List (κ × β)),
      (L.map Prod.fst).Nodup →
      (∃ b, (k0, b) ∈ L ∧ p (k0, b) = true) →
      (∀ q, q ∈ L → p q = true → q.1 = k0) →
      (L.filter p).length = 1 := by
  intro L
  induction L with
  | nil =>
    rintro _ ⟨b, hb, _⟩ _
    simp at hb
  | cons q L ih =>
    intro hnd hmem honly
    have hnds : (q.1 :: L.map Prod.fst).Nodup := by simpa using hnd
    rcases bool_false_or_true (p q) with hpq | hpq
    · rcases hmem with ⟨b, hb, hpb⟩
      rcases List.mem_cons.mp hb with heq | hbL
      · rw [← heq] at hpq
        rw [hpq] at hpb
        cases hpb
      · rw [List.filter_cons_of_neg (by simp [hpq])]
        exact ih (List.nodup_cons.mp hnds).2 ⟨b, hbL, hpb⟩
          (fun q2 hq2 => honly q2 (List.mem_cons_of_mem _ hq2))
    · have hk0 : q.1 = k0 := honly q (List.mem_cons_self q L) hpq
      rw [List.filter_cons_of_pos (by simp [hpq])]
      have hLnil : L.filter p = [] := by
        rw [List.filter_eq_nil]
        intro q2 hq2 hpq2
        have hk2 : q2.1 = k0 := honly q2 (List.mem_cons_of_mem _ hq2)
          (by simpa using hpq2)
        have hmem2 : q.1 ∈ L.map Prod.fst := by
          rw [hk0, ← hk2]
          exact List.mem_map_of_mem Prod.fst hq2
        exact (List.nodup_cons.mp hnds).1 hmem2
      rw [hLnil]
      rfl

theorem sum_eq_one_of_unique_key {κ β : Type} [DecidableEq κ]
    (f : κ × β → Nat) (k0 : κ) :
    ∀ (L : List (κ × β)),
      (L.map Prod.fst).Nodup →
      (∃ b, (k0, b) ∈ L ∧ f (k0, b) = 1) →
      (∀ q, q ∈ L → q.1 ≠ k0 → f q = 0) →
      (L.map f).sum = 1 := by
  intro L
  induction L with
  | nil =>
    rintro _ ⟨b, hb, _⟩ _
    simp at hb
  | cons q L ih =>
    intro hnd hmem hzero
    have hnds : (q.1 :: L.map Prod.fst).Nodup := by simpa using hnd
    rcases hmem with ⟨b, hb, hfb⟩
    rcases List.mem_cons.mp hb with heq | hbL
    · have hLzero : (L.map f).sum = 0 := by
        apply List.sum_eq_zero
        intro x hx
        rcases List.mem_map.mp hx with ⟨q2, hq2, rfl⟩
        apply hzero q2 (List.mem_cons_of_mem _ hq2)
        intro hk2
        have hq1 : q.1 = k0 := by rw [← heq]
        have hmem2 : q.1 ∈ L.map Prod.fst := by
          rw [hq1, ← hk2]
          exact List.mem_map_of_mem Prod.fst hq2
        exact (List.nodup_cons.mp hnds).1 hmem2
      rw [List.map_cons, List.sum_cons, hLzero, ← heq, hfb]
    · have hq0 : f q = 0 := by
        apply hzero q (List.mem_cons_self q L)
        intro hk
        have hmem2 : q.1 ∈ L.map Prod.fst := by
          rw [hk]
          exact List.mem_map_of_mem Prod.fst hbL
        exact (List.nodup_cons.mp hnds).1 hmem2
      rw [List.map_cons, List.sum_cons, hq0]
      simp only [Nat.zero_add]
      exact ih (List.nodup_cons.mp hnds).2 ⟨b, hbL, hfb⟩
        (fun q2 hq2 => hzero q2 (List.mem_cons_of_mem _ hq2))

theorem mem_sizeBucketOf_iff {cfg : ScanConfig} {walk : List (Option Entry)}
    {sz : Nat} {e : Entry} :
    e ∈ sizeBucketOf cfg walk sz ↔
      e ∈ discover cfg walk ∧ Entry.size e = sz := by
  unfold sizeBucketOf
  rw [List.mem_filter]
  simp

theorem mem_sizeBucketOf_self {cfg : ScanConfig} {walk : List (Option Entry)}
    {e : Entry} (he : e ∈ discover cfg walk) :
    e ∈ sizeBucketOf cfg walk (Entry.size e) :=
  mem_sizeBucketOf_iff.mpr ⟨he, rfl⟩

theorem mem_hashGroupOf_iff {sha : List Nat → List Nat} {cfg : ScanConfig}
    {B : List Entry} {h : String} {q : String × Entry} :
    q ∈ hashGroupOf sha cfg B h ↔
      q.2 ∈ B ∧ hash_file sha cfg q.2 = some h ∧ q.1 = h := by
  rcases q with ⟨qh, qe⟩
  unfold hashGroupOf
  rw [List.mem_filter]
  simp only [decide_eq_true_eq]
  constructor
  · rintro ⟨hq, hcond⟩
    rcases mem_hashedPairs_iff.mp hq with ⟨hB, hh⟩
    subst hcond
    exact ⟨hB, hh, rfl⟩
  · rintro ⟨hB, hh, hcond⟩
    subst hcond
    exact ⟨mem_hashedPairs_iff.mpr ⟨hB, hh⟩, rfl⟩

theorem mem_scanGroups_elim {sha : List Nat → List Nat} {cfg : ScanConfig}
    {walk : List (Option Entry)} {g : List FileInfo}
    (hg : g ∈ scanGroups sha cfg walk) :
    ∃ sz h, (sz, sizeBucketOf cfg walk sz) ∈ sizeBuckets cfg walk ∧
      1 < (hashGroupOf sha cfg (sizeBucketOf cfg walk sz) h).length ∧
      g = (hashGroupOf sha cfg (sizeBucketOf cfg walk sz) h).map
        (fun q => toFileInfo sz q.2) := by
  unfold scanGroups at hg
  rcases List.mem_flatten.mp hg with ⟨gs, hgs, hin⟩
  rcases List.mem_map.mp hgs with ⟨b, hb, rfl⟩
  have hbiff := mem_sizeBuckets_iff.mp (by simpa using hb)
  rcases hbiff with ⟨hkey, hBeq, hBlen⟩
  unfold bucketGroups at hin
  rcases List.mem_map.mp hin with ⟨q, hq, rfl⟩
  rcases List.mem_filter.mp hq with ⟨hqmem, hqlen⟩
  rcases mem_bucketsBy_elim hqmem with ⟨hq2, _⟩
  refine ⟨b.1, q.1, ?_, ?_, ?_⟩
  · rw [← hBeq]
    simpa using hb
  · rw [← hBeq]
    unfold hashGroupOf
    rw [← hq2]
    simpa using hqlen
  · rw [← hBeq]
    unfold hashGroupOf
    rw [← hq2]

theorem scanGroups_intro {sha : List Nat → List Nat} {cfg : ScanConfig}
    {walk : List (Option Entry)} {sz : Nat} {h : String}
    (hB : (sz, sizeBucketOf cfg walk sz) ∈ sizeBuckets cfg walk)
    (hkey : h ∈ (hashedPairs sha cfg (sizeBucketOf cfg walk sz)).map Prod.fst)
    (hlen : 1 < (hashGroupOf sha cfg (sizeBucketOf cfg walk sz) h).length) :
    (hashGroupOf sha cfg (sizeBucketOf cfg walk sz) h).map
      (fun q => toFileInfo sz q.2) ∈ scanGroups sha cfg walk := by
  unfold scanGroups
  apply List.mem_flatten.mpr
  refine ⟨bucketGroups sha cfg sz (sizeBucketOf cfg walk sz), ?_, ?_⟩
  · exact List.mem_map.mpr ⟨(sz, sizeBucketOf cfg walk sz), hB, rfl⟩
  · unfold bucketGroups
    apply List.mem_map.mpr
    refine ⟨(h, hashGroupOf sha cfg (sizeBucketOf cfg walk sz) h), ?_, rfl⟩
    apply List.mem_filter.mpr
    exact ⟨mem_bucketsBy_intro hkey, by simpa using hlen⟩

theorem pair_in_scanGroups {sha : List Nat → List Nat} {cfg : ScanConfig}
    {walk : List (Option Entry)} {a b : Entry} {h : String}
    (ha : a ∈ discover cfg walk) (hb : b ∈ discover cfg walk) (hab : a ≠ b)
    (hsz : Entry.size b = Entry.size a)
    (hha : hash_file sha cfg a = some h) (hhb : hash_file sha cfg b = some h) :
    ∃ g, g ∈ scanGroups sha cfg walk ∧
      toFileInfo (Entry.size a) a ∈ g ∧ toFileInfo (Entry.size a) b ∈ g := by
  have haB : a ∈ sizeBucketOf cfg walk (Entry.size a) := mem_sizeBucketOf_self ha
  have hbB : b ∈ sizeBucketOf cfg walk (Entry.size a) :=
    mem_sizeBucketOf_iff.mpr ⟨hb, hsz⟩
  have hBlen : 1 < (sizeBucketOf cfg walk (Entry.size a)).length :=
    two_mem_lt_length hbB haB (fun hba => hab hba.symm)
  have hBmem : (Entry.size a, sizeBucketOf cfg walk (Entry.size a))
      ∈ sizeBuckets cfg walk :=
    mem_sizeBuckets_iff.mpr ⟨List.mem_map_of_mem Entry.size ha, rfl, hBlen⟩
  have hpa : (h, a) ∈ hashGroupOf sha cfg (sizeBucketOf cfg walk (Entry.size a)) h :=
    mem_hashGroupOf_iff.mpr ⟨haB, hha, rfl⟩
  have hpb : (h, b) ∈ hashGroupOf sha cfg (sizeBucketOf cfg walk (Entry.size a)) h :=
    mem_hashGroupOf_iff.mpr ⟨hbB, hhb, rfl⟩
  have hPlen : 1 < (hashGroupOf sha cfg (sizeBucketOf cfg walk (Entry.size a)) h).length :=
    two_mem_lt_length hpa hpb
      (fun heq => hab (congrArg Prod.snd heq))
  have hkey : h ∈ (hashedPairs sha cfg (sizeBucketOf cfg walk (Entry.size a))).map Prod.fst := by
    apply List.mem_map.mpr
    exact ⟨(h, a), mem_hashedPairs_iff.mpr ⟨haB, hha⟩, rfl⟩
  refine ⟨_, scanGroups_intro hBmem hkey hPlen, ?_, ?_⟩
  · exact List.mem_map.mpr ⟨(h, a), hpa, rfl⟩
  · exact List.mem_map.mpr ⟨(h, b), hpb, rfl⟩

theorem discover_path_inj {cfg : ScanConfig} {walk : List (Option Entry)}
    (hnd : ((discover cfg walk).map Entry.path).Nodup) {e1 e2 : Entry}
    (h1 : e1 ∈ discover cfg walk) (h2 : e2 ∈ discover cfg walk)
    (hp : e1.path = e2.path) : e1 = e2 :=
  List.inj_on_of_nodup_map hnd h1 h2 hp

theorem hashGroupOf_entries_nodup {sha : List Nat → List Nat}
    {cfg : ScanConfig} {walk : List (Option Entry)} {sz : Nat} {h : String}
    (hndD : (discover cfg walk).Nodup) :
    (hashGroupOf sha cfg (sizeBucketOf cfg walk sz) h).Nodup := by
  have hB : (sizeBucketOf cfg walk sz).Nodup := hndD.filter _
  have hpairs : (hashedPairs sha cfg (sizeBucketOf cfg walk sz)).Nodup := by
    apply List.Nodup.of_map Prod.snd
    rw [hashedPairs_snd]
    exact hB.filter _
  exact hpairs.filter _

/- ------------------------------------------------------------------ -/
/- Claims C2, C8, C10                                                  -/
/- ------------------------------------------------------------------ -/

/-- Claim C2: every group emitted by the scan has at least two members, and
all of its members share one byte size and one content digest (each member's
path traces back to a discovered entry of that size whose hash is that
digest). -/
theorem C2_group_invariants (sha : List Nat → List Nat) (cfg : ScanConfig)
    (walk : List (Option Entry)) (g : List FileInfo)
    (hg : g ∈ scanGroups sha cfg walk) :
    2 ≤ g.length ∧
    ∃ sz h, ∀ f, f ∈ g → f.size = sz ∧
      ∃ e, e ∈ discover cfg walk ∧ e.path = f.path ∧ Entry.size e = sz ∧
        e.modTime = f.modified_time ∧ hash_file sha cfg e = some h := by
  rcases mem_scanGroups_elim hg with ⟨sz, h, _, hPlen, hgeq⟩
  constructor
  · rw [hgeq, List.length_map]
    omega
  · refine ⟨sz, h, ?_⟩
    intro f hf
    rw [hgeq] at hf
    rcases List.mem_map.mp hf with ⟨q, hq, rfl⟩
    rcases mem_hashGroupOf_iff.mp hq with ⟨hqB, hqh, _⟩
    rcases mem_sizeBucketOf_iff.mp hqB with ⟨hqD, hqsz⟩
    exact ⟨rfl, q.2, hqD, rfl, hqsz, rfl, hqh⟩

/-- Witness for C2 at the concrete group emitted for `walkPair`. -/
theorem C2_group_invariants_witness :
    2 ≤ ([toFileInfo 1 entX, toFileInfo 1 entY] : List FileInfo).length ∧
    ∃ sz h, ∀ f, f ∈ ([toFileInfo 1 entX, toFileInfo 1 entY] : List FileInfo) →
      f.size = sz ∧
      ∃ e, e ∈ discover defaultConfig walkPair ∧ e.path = f.path ∧
        Entry.size e = sz ∧ e.modTime = f.modified_time ∧
        hash_file shaI defaultConfig e = some h :=
  C2_group_invariants shaI defaultConfig walkPair
    [toFileInfo 1 entX, toFileInfo 1 entY] (by decide)

/-- Claim C8: a file whose hash computation fails is dropped from its size
bucket without escalating an error — no emitted group carries its path — and
a digest subgroup left with at most one successfully hashed member emits no
group at all. -/
theorem C8_hash_failure_dropped (sha : List Nat → List Nat) (cfg : ScanConfig)
    (walk : List (Option Entry)) (e : Entry)
    (hnd : ((discover cfg walk).map Entry.path).Nodup)
    (he : e ∈ discover cfg walk) (hro : e.readOk = false) :
    (∀ g, g ∈ scanGroups sha cfg walk → ∀ f, f ∈ g → f.path ≠ e.path) ∧
    (∀ sz B, (B.filter (fun x => x.readOk)).length ≤ 1 →
      bucketGroups sha cfg sz B = []) := by
  constructor
  · intro g hg f hf hpath
    rcases mem_scanGroups_elim hg with ⟨sz, h, _, _, hgeq⟩
    rw [hgeq] at hf
    rcases List.mem_map.mp hf with ⟨q, hq, rfl⟩
    rcases mem_hashGroupOf_iff.mp hq with ⟨hqB, hqh, _⟩
    rcases mem_sizeBucketOf_iff.mp hqB with ⟨hqD, _⟩
    have hq2e : q.2 = e := discover_path_inj hnd hqD he hpath
    rw [hq2e] at hqh
    unfold hash_file at hqh
    rw [if_neg (by simp [hro])] at hqh
    simp at hqh
  · intro sz B hBle
    unfold bucketGroups
    have hnil : (bucketsBy Prod.fst (hashedPairs sha cfg B)).filter
        (fun p => decide (1 < p.2.length)) = [] := by
      rw [List.filter_eq_nil]
      intro q hq
      rcases mem_bucketsBy_elim hq with ⟨hq2, _⟩
      have hsub : q.2.length ≤ (hashedPairs sha cfg B).length := by
        rw [hq2]
        exact (List.filter_sublist _).length_le
      have hple : (hashedPairs sha cfg B).length ≤ 1 := by
        have hmap : (hashedPairs sha cfg B).length
            = ((hashedPairs sha cfg B).map Prod.snd).length :=
          (List.length_map _ _).symm
        rw [hmap, hashedPairs_snd]
        exact hBle
      simp only [decide_eq_true_eq]
      omega
    rw [hnil]
    rfl

/-- Witness for C8: the bucket of `walkHashFail` (two content-identical files,
one of which cannot be hashed) emits no group. -/
theorem C8_hash_failure_dropped_witness :
    bucketGroups shaI defaultConfig 1 [entF1, entF2] = [] :=
  (C8_hash_failure_dropped shaI defaultConfig walkHashFail entF2
    (by decide) (by decide) (by decide)).2 1 [entF1, entF2] (by decide)

/-- Claim C10: with `buffer_size = 0`, `hash_file` still succeeds on every
openable file and returns the digest of the empty byte string (the read loop
breaks at once on a zero-length buffer), so any two openable discovered files
of one size end up together in a duplicate group regardless of content — the
engine never validates that `buffer_size` is positive. -/
theorem C10_zero_buffer (sha : List Nat → List Nat) (cfg : ScanConfig)
    (walk : List (Option Entry)) (a b : Entry) (hbuf : cfg.buffer_size = 0)
    (ha : a ∈ discover cfg walk) (hb : b ∈ discover cfg walk) (hab : a ≠ b)
    (hsz : Entry.size b = Entry.size a)
    (hra : a.readOk = true) (hrb : b.readOk = true) :
    hash_file sha cfg a = some (hexEncode (sha [])) ∧
    ∃ g, g ∈ scanGroups sha cfg walk ∧
      toFileInfo (Entry.size a) a ∈ g ∧ toFileInfo (Entry.size a) b ∈ g := by
  have hhash : ∀ x : Entry, x.readOk = true →
      hash_file sha cfg x = some (hexEncode (sha [])) := by
    intro x hrx
    unfold hash_file
    rw [if_pos hrx, hbuf, hashLoop_zero]
  exact ⟨hhash a hra,
    pair_in_scanGroups ha hb hab hsz (hhash a hra) (hhash b hrb)⟩

/-- Witness for C10: two same-size files with different contents, scanned
with a zero buffer, land in one group. -/
theorem C10_zero_buffer_witness :
    hash_file shaI cfgBuf0 entP = some (hexEncode (shaI [])) ∧
    ∃ g, g ∈ scanGroups shaI cfgBuf0 walkSameSize ∧
      toFileInfo (Entry.size entP) entP ∈ g ∧
      toFileInfo (Entry.size entP) entQ ∈ g :=
  C10_zero_buffer shaI cfgBuf0 walkSameSize entP entQ rfl (by decide)
    (by decide) (by decide) (by decide) rfl rfl

theorem filter_flatten_my {α : Type} (p : α → Bool) :
    ∀ (L : List (List α)),
      L.flatten.filter p = (L.map (fun l => l.filter p)).flatten := by
  intro L
  induction L with
  | nil => rfl
  | cons l L ih =>
    simp only [List.flatten_cons, List.filter_append, List.map_cons, ih]

theorem length_flatten_my {α : Type} :
    ∀ (L : List (List α)), L.flatten.length = (L.map List.length).sum := by
  intro L
  induction L with
  | nil => rfl
  | cons l L ih =>
    simp only [List.flatten_cons, List.length_append, List.map_cons,
      List.sum_cons, ih]

theorem filter_map_my {α β : Type} (f : α → β) (p : β → Bool) :
    ∀ (l : List α),
      (l.map f).filter p = (l.filter (fun x => p (f x))).map f := by
  intro l
  induction l with
  | nil => rfl
  | cons x l ih =>
    rcases bool_false_or_true (p (f x)) with hp | hp
    · rw [List.map_cons, List.filter_cons_of_neg (by simp [hp]),
        List.filter_cons_of_neg (by simp [hp]), ih]
    · rw [List.map_cons, List.filter_cons_of_pos (by simp [hp]),
        List.filter_cons_of_pos (by simp [hp]), List.map_cons, ih]

theorem filter_filter_my {α : Type} (p q : α → Bool) :
    ∀ (l : List α),
      (l.filter p).filter q = l.filter (fun x => p x && q x) := by
  intro l
  induction l with
  | nil => rfl
  | cons x l ih =>
    rcases bool_false_or_true (p x) with hp | hp
    · rw [List.filter_cons_of_neg (by simp [hp]),
        List.filter_cons_of_neg (by simp [hp]), ih]
    · rcases bool_false_or_true (q x) with hq | hq
      · rw [List.filter_cons_of_pos (by simp [hp]),
          List.filter_cons_of_neg (by simp [hq]),
          List.filter_cons_of_neg (by simp [hp, hq]), ih]
      · rw [List.filter_cons_of_pos (by simp [hp]),
          List.filter_cons_of_pos (by simp [hq]),
          List.filter_cons_of_pos (by simp [hp, hq]), ih]

theorem groupHasPath_true_iff {p : List String} {g : List FileInfo} :
    groupHasPath p g = true ↔ ∃ f, f ∈ g ∧ f.path = p := by
  unfold groupHasPath
  rw [List.any_eq_true]
  simp

theorem mem_bucketGroups_elim {sha : List Nat → List Nat} {cfg : ScanConfig}
    {sz : Nat} {B : List Entry} {g : List FileInfo}
    (hg : g ∈ bucketGroups sha cfg sz B) :
    ∃ h, 1 < (hashGroupOf sha cfg B h).length ∧
      g = (hashGroupOf sha cfg B h).map (fun q => toFileInfo sz q.2) := by
  unfold bucketGroups at hg
  rcases List.mem_map.mp hg with ⟨q, hq, rfl⟩
  rcases List.mem_filter.mp hq with ⟨hqmem, hqlen⟩
  rcases mem_bucketsBy_elim hqmem with ⟨hq2, _⟩
  refine ⟨q.1, ?_, ?_⟩
  · unfold hashGroupOf
    rw [← hq2]
    simpa using hqlen
  · unfold hashGroupOf
    rw [← hq2]

theorem hash_file_some {sha : List Nat → List Nat} {cfg : ScanConfig}
    {e : Entry} {h : String} (hh : hash_file sha cfg e = some h) :
    e.readOk = true ∧
    hexEncode (sha (hashLoop cfg.buffer_size e.content)) = h := by
  unfold hash_file at hh
  rcases bool_false_or_true e.readOk with hre | hre
  · rw [if_neg (by simp [hre])] at hh
    simp at hh
  · rw [if_pos hre] at hh
    exact ⟨hre, by simpa using hh⟩

/- ------------------------------------------------------------------ -/
/- Claim C1                                                            -/
/- ------------------------------------------------------------------ -/

/-- Claim C1, amended: under a positive `buffer_size` and in the absence of
digest collisions among scanned files, every pair of distinct discovered files
(regular, visible under the hidden-file setting, metadata readable, size at
least `min_file_size`) with identical content whose hashing succeeds appears
together in exactly one emitted group, and every discovered file whose content
is unique among the discovered files appears in no group. -/
theorem C1_unique_grouping (sha : List Nat → List Nat) (cfg : ScanConfig)
    (walk : List (Option Entry)) (a b : Entry)
    (hnd : ((discover cfg walk).map Entry.path).Nodup)
    (hbuf : 0 < cfg.buffer_size)
    (hcoll : ∀ e1, e1 ∈ discover cfg walk → ∀ e2, e2 ∈ discover cfg walk →
      hexEncode (sha e1.content) = hexEncode (sha e2.content) →
      e1.content = e2.content) :
    (a ∈ discover cfg walk → b ∈ discover cfg walk → a.path ≠ b.path →
      a.content = b.content → a.readOk = true → b.readOk = true →
      ((scanGroups sha cfg walk).filter
        (fun g => groupHasPath a.path g && groupHasPath b.path g)).length = 1) ∧
    (a ∈ discover cfg walk →
      (∀ e, e ∈ discover cfg walk → e.content = a.content → e = a) →
      ∀ g, g ∈ scanGroups sha cfg walk → groupHasPath a.path g = false) := by
  constructor
  · intro ha hb hne hcont hra hrb
    have hab : a ≠ b := fun hh => hne (congrArg Entry.path hh)
    have hsz : Entry.size b = Entry.size a := by
      unfold Entry.size
      rw [hcont]
    obtain ⟨h, hha, hhb⟩ : ∃ h, hash_file sha cfg a = some h ∧
        hash_file sha cfg b = some h := by
      refine ⟨hexEncode (sha (hashLoop cfg.buffer_size a.content)), ?_, ?_⟩
      · unfold hash_file
        rw [if_pos hra]
      · unfold hash_file
        rw [if_pos hrb, ← hcont]
    have haB : a ∈ sizeBucketOf cfg walk (Entry.size a) := mem_sizeBucketOf_self ha
    have hbB : b ∈ sizeBucketOf cfg walk (Entry.size a) :=
      mem_sizeBucketOf_iff.mpr ⟨hb, hsz⟩
    have hBlen : 1 < (sizeBucketOf cfg walk (Entry.size a)).length :=
      two_mem_lt_length haB hbB hab
    have hBmem : (Entry.size a, sizeBucketOf cfg walk (Entry.size a))
        ∈ sizeBuckets cfg walk :=
      mem_sizeBuckets_iff.mpr ⟨List.mem_map_of_mem Entry.size ha, rfl, hBlen⟩
    have hpa : (h, a) ∈ hashGroupOf sha cfg
        (sizeBucketOf cfg walk (Entry.size a)) h :=
      mem_hashGroupOf_iff.mpr ⟨haB, hha, rfl⟩
    have hpb : (h, b) ∈ hashGroupOf sha cfg
        (sizeBucketOf cfg walk (Entry.size a)) h :=
      mem_hashGroupOf_iff.mpr ⟨hbB, hhb, rfl⟩
    have hPlen : 1 < (hashGroupOf sha cfg
        (sizeBucketOf cfg walk (Entry.size a)) h).length :=
      two_mem_lt_length hpa hpb (fun heq => hab (congrArg Prod.snd heq))
    -- the count inside the size bucket of `a` is one
    have hinner : ((bucketGroups sha cfg (Entry.size a)
        (sizeBucketOf cfg walk (Entry.size a))).filter
        (fun g => groupHasPath a.path g && groupHasPath b.path g)).length = 1 := by
      unfold bucketGroups
      rw [filter_map_my, List.length_map, filter_filter_my]
      apply length_filter_eq_one_of_unique_key _ h _
        (bucketsBy_keys_nodup _ _)
      · refine ⟨hashGroupOf sha cfg (sizeBucketOf cfg walk (Entry.size a)) h,
          ?_, ?_⟩
        · exact mem_bucketsBy_intro (List.mem_map.mpr
            ⟨(h, a), mem_hashedPairs_iff.mpr ⟨haB, hha⟩, rfl⟩)
        · apply (Bool.and_eq_true _ _).mpr
          constructor
          · simpa using hPlen
          · apply (Bool.and_eq_true _ _).mpr
            constructor
            · exact groupHasPath_true_iff.mpr
                ⟨toFileInfo (Entry.size a) a,
                  List.mem_map.mpr ⟨(h, a), hpa, rfl⟩, rfl⟩
            · exact groupHasPath_true_iff.mpr
                ⟨toFileInfo (Entry.size a) b,
                  List.mem_map.mpr ⟨(h, b), hpb, rfl⟩, rfl⟩
      · intro q hq hpq
        rcases mem_bucketsBy_elim hq with ⟨hq2, _⟩
        rcases (Bool.and_eq_true _ _).mp hpq with ⟨_, hpq2⟩
        rcases (Bool.and_eq_true _ _).mp hpq2 with ⟨hpa2, _⟩
        rcases groupHasPath_true_iff.mp hpa2 with ⟨f, hf, hfp⟩
        rcases List.mem_map.mp hf with ⟨pr, hpr, rfl⟩
        rw [hq2] at hpr
        rcases List.mem_filter.mp hpr with ⟨hprP, hprcond⟩
        have hprk : pr.1 = q.1 := by simpa using hprcond
        have hpr2 : pr.2 ∈ sizeBucketOf cfg walk (Entry.size a) ∧
            hash_file sha cfg pr.2 = some pr.1 := by
          have : (pr.1, pr.2) ∈ hashedPairs sha cfg
              (sizeBucketOf cfg walk (Entry.size a)) := by
            simpa using hprP
          exact mem_hashedPairs_iff.mp this
        have hprD : pr.2 ∈ discover cfg walk :=
          (mem_sizeBucketOf_iff.mp hpr2.1).1
        have hpr2a : pr.2 = a := discover_path_inj hnd hprD ha hfp
        have hprh : some pr.1 = some h := by
          rw [← hpr2.2, hpr2a, hha]
        rw [← hprk]
        exact (Option.some.injEq _ _).mp hprh
    have hflat : (scanGroups sha cfg walk).filter
        (fun g => groupHasPath a.path g && groupHasPath b.path g)
        = ((sizeBuckets cfg walk).map
            (fun q => (bucketGroups sha cfg q.1 q.2).filter
              (fun g => groupHasPath a.path g && groupHasPath b.path g))).flatten := by
      unfold scanGroups
      rw [filter_flatten_my, List.map_map]
      rfl
    rw [hflat, length_flatten_my, List.map_map]
    apply sum_eq_one_of_unique_key _ (Entry.size a)
    · exact (bucketsBy_keys_nodup _ _).sublist
        ((List.filter_sublist _).map Prod.fst)
    · exact ⟨sizeBucketOf cfg walk (Entry.size a), hBmem, hinner⟩
    · intro q hq hqne
      show ((bucketGroups sha cfg q.1 q.2).filter _).length = 0
      apply List.length_eq_zero.mpr
      rw [List.filter_eq_nil]
      intro g hg hPg
      rcases (Bool.and_eq_true _ _).mp (by simpa using hPg) with ⟨hpa2, _⟩
      rcases groupHasPath_true_iff.mp hpa2 with ⟨f, hf, hfp⟩
      have hqiff := mem_sizeBuckets_iff.mp (show (q.1, q.2) ∈ sizeBuckets cfg walk by
        simpa using hq)
      rcases hqiff with ⟨_, hq2, _⟩
      rw [hq2] at hg
      rcases mem_bucketGroups_elim hg with ⟨h2, _, hgeq⟩
      rw [hgeq] at hf
      rcases List.mem_map.mp hf with ⟨pr, hpr, rfl⟩
      rcases mem_hashGroupOf_iff.mp hpr with ⟨hprB, _, _⟩
      rcases mem_sizeBucketOf_iff.mp hprB with ⟨hprD, hprsz⟩
      have hpr2a : pr.2 = a := discover_path_inj hnd hprD ha hfp
      apply hqne
      rw [← hprsz, hpr2a]
  · intro ha huniq g hg
    rcases bool_false_or_true (groupHasPath a.path g) with hres | hres
    · exact hres
    · exfalso
      rcases groupHasPath_true_iff.mp hres with ⟨f, hf, hfp⟩
      rcases mem_scanGroups_elim hg with ⟨sz, h, _, hPlen, hgeq⟩
      rw [hgeq] at hf
      rcases List.mem_map.mp hf with ⟨q, hq, rfl⟩
      rcases mem_hashGroupOf_iff.mp hq with ⟨hqB, hqh, hqk⟩
      rcases mem_sizeBucketOf_iff.mp hqB with ⟨hqD, _⟩
      have hq2a : q.2 = a := discover_path_inj hnd hqD ha hfp
      have hPnd : (hashGroupOf sha cfg (sizeBucketOf cfg walk sz) h).Nodup :=
        hashGroupOf_entries_nodup hnd.of_map
      rcases exists_ne_of_nodup hPnd hPlen hq with ⟨q2, hq2mem, hq2ne⟩
      rcases mem_hashGroupOf_iff.mp hq2mem with ⟨hq2B, hq2h, hq2k⟩
      rcases mem_sizeBucketOf_iff.mp hq2B with ⟨hq2D, _⟩
      rcases hash_file_some hqh with ⟨_, hqhex⟩
      rcases hash_file_some hq2h with ⟨_, hq2hex⟩
      rw [hashLoop_id cfg.buffer_size hbuf] at hqhex hq2hex
      have hhexeq : hexEncode (sha q2.2.content)
          = hexEncode (sha q.2.content) := by
        rw [hqhex, hq2hex]
      have hconteq : q2.2.content = q.2.content :=
        hcoll q2.2 hq2D q.2 hqD hhexeq
      have hq22a : q2.2 = a := by
        apply huniq q2.2 hq2D
        rw [hconteq, hq2a]
      apply hq2ne
      have h1 : q2.1 = q.1 := by rw [hq2k, hqk]
      have h2 : q2.2 = q.2 := by rw [hq22a, hq2a]
      exact Prod.ext h1 h2

/-- Claim C1, counterexample to the claim as stated for pairs "of any size":
`walkEmptyPair` holds two regular files with identical (empty) byte content;
under the default configuration (`min_file_size = 1`) the scan succeeds and
emits no group at all, so the pair does not appear together in any group. -/
theorem C1_counterexample :
    scan_directory shaI defaultConfig walkEmptyPair = Except.ok [] ∧
    entE1.content = entE2.content ∧ entE1.isFile = true ∧
    entE2.isFile = true ∧ decide (entE1.path = entE2.path) = false := by
  refine ⟨?_, by decide, by decide, by decide, by decide⟩
  show Except.ok (scanGroups shaI defaultConfig walkEmptyPair) = Except.ok []
  have hempty : scanGroups shaI defaultConfig walkEmptyPair = [] := by decide
  rw [hempty]

/-- Witness for C1 on `walkPair`: the identical pair x, y lies in exactly one
group, and the content-unique file z is in no group. -/
theorem C1_unique_grouping_witness :
    ((scanGroups shaI defaultConfig walkPair).filter
      (fun g => groupHasPath entX.path g && groupHasPath entY.path g)).length
      = 1 ∧
    groupHasPath entZ.path [toFileInfo 1 entX, toFileInfo 1 entY] = false := by
  constructor
  · exact (C1_unique_grouping shaI defaultConfig walkPair entX entY
      (by decide) (by decide) (by decide)).1
      (by decide) (by decide) (by decide) (by decide) rfl rfl
  · exact (C1_unique_grouping shaI defaultConfig walkPair entZ entX
      (by decide) (by decide) (by decide)).2
      (by decide) (by decide) [toFileInfo 1 entX, toFileInfo 1 entY] (by decide)

/- ------------------------------------------------------------------ -/
/- Claim C3                                                            -/
/- ------------------------------------------------------------------ -/

theorem filterMap_id_map_some {α : Type} :
    ∀ (l : List α), (l.map some).filterMap id = l := by
  intro l
  induction l with
  | nil => rfl
  | cons x l ih =>
    simp only [List.map_cons, List.filterMap_cons, id]
    rw [ih]

/-- Claim C3, amended: `scan_directory` never returns an error — its single
return is `Ok` — and the result is unchanged when the walker's error entries
are removed, or when file entries with unreadable metadata are removed: every
traversal failure, including the root being unopenable, is skipped silently
rather than aborting the scan. -/
theorem C3_never_fails (sha : List Nat → List Nat) (cfg : ScanConfig)
    (walk : List (Option Entry)) :
    scan_directory sha cfg walk = Except.ok (scanGroups sha cfg walk) ∧
    (∀ err, scan_directory sha cfg walk ≠ Except.error err) ∧
    scan_directory sha cfg walk
      = scan_directory sha cfg ((walk.filterMap id).map some) ∧
    scan_directory sha cfg walk
      = scan_directory sha cfg (((walk.filterMap id).filter
          (fun e => !(e.isFile && !e.metaOk))).map some) := by
  refine ⟨rfl, ?_, ?_, ?_⟩
  · intro err herr
    exact Except.noConfusion herr
  · have hdis : discover cfg ((walk.filterMap id).map some)
        = discover cfg walk := by
      unfold discover
      rw [filterMap_id_map_some]
    show Except.ok (scanGroups sha cfg walk) = Except.ok _
    have hsg : scanGroups sha cfg ((walk.filterMap id).map some)
        = scanGroups sha cfg walk := by
      unfold scanGroups sizeBuckets
      rw [hdis]
    rw [hsg]
  · have hdis : discover cfg (((walk.filterMap id).filter
        (fun e => !(e.isFile && !e.metaOk))).map some)
        = discover cfg walk := by
      unfold discover
      rw [filterMap_id_map_some]
      simp only [filter_filter_my]
      apply List.filter_congr
      intro e _
      rcases bool_false_or_true e.isFile with hif | hif
      · simp [hif]
      · rcases bool_false_or_true e.metaOk with him | him
        · simp [hif, him]
        · simp [hif, him]
    show Except.ok (scanGroups sha cfg walk) = Except.ok _
    have hsg : scanGroups sha cfg (((walk.filterMap id).filter
        (fun e => !(e.isFile && !e.metaOk))).map some)
        = scanGroups sha cfg walk := by
      unfold scanGroups sizeBuckets
      rw [hdis]
    rw [hsg]

/-- Claim C3, counterexample: an unopenable root makes the walker yield one
error entry and nothing else; `scan_directory` returns success with an empty
list instead of the claimed fatal `TraversalError`/`IoError`. -/
theorem C3_counterexample :
    scan_directory shaI defaultConfig [Option.none] = Except.ok [] := rfl

/- ------------------------------------------------------------------ -/
/- Claim C4                                                            -/
/- ------------------------------------------------------------------ -/

/-- Claim C4, amended: every progress event of the scan carries the fixed
total `total_files`; the scan emits exactly one event per candidate-bucket
file after the discovery-complete transition event, with strictly increasing
`current = 1, 2, ...`; the transition event itself however reports
`current = total`, so `current` is not monotonically nondecreasing across the
whole Hashing-phase event sequence (it falls back to 1 after the
transition). -/
theorem C4_progress_events (cfg : ScanConfig) (walk : List (Option Entry)) :
    (scan_events cfg walk).map ScanProgress.total
      = List.replicate (scan_events cfg walk).length (total_files cfg walk) ∧
    (scan_events cfg walk).length = (candidateFiles cfg walk).length + 1 ∧
    (scan_events cfg walk).tail.map ScanProgress.current
      = (List.range (candidateFiles cfg walk).length).map (fun n => n + 1) ∧
    List.Chain' (fun x y => x < y)
      ((scan_events cfg walk).tail.map ScanProgress.current) := by
  have hcur : (scan_events cfg walk).tail.map ScanProgress.current
      = (List.range (candidateFiles cfg walk).length).map (fun n => n + 1) := by
    show ((candidateFiles cfg walk).enum.map _).map ScanProgress.current = _
    rw [List.map_map]
    have hfst := List.enum_map_fst (candidateFiles cfg walk)
    have := congrArg (List.map (fun n => n + 1)) hfst
    rw [List.map_map] at this
    exact this
  refine ⟨?_, ?_, hcur, ?_⟩
  · show ScanProgress.total _ :: ((candidateFiles cfg walk).enum.map _).map
        ScanProgress.total = _
    rw [List.map_map]
    have hlen : (scan_events cfg walk).length
        = (candidateFiles cfg walk).enum.length + 1 := by
      show (_ :: _).length = _
      rw [List.length_cons, List.length_map]
    rw [hlen, List.replicate_succ]
    have hconst : (candidateFiles cfg walk).enum.map
        (ScanProgress.total ∘ (fun pe : Nat × Entry =>
          ({ current := pe.1 + 1, total := total_files cfg walk,
             current_file := pathDisplay pe.2.path,
             phase := ScanPhase.Hashing } : ScanProgress)))
        = List.replicate (candidateFiles cfg walk).enum.length
            (total_files cfg walk) := by
      have := List.map_const' (candidateFiles cfg walk).enum
        (total_files cfg walk)
      exact this ▸ rfl
    exact congrArg (List.cons _) hconst
  · show (_ :: _).length = _
    rw [List.length_cons, List.length_map, List.enum_length]
  · rw [hcur]
    have hpw : ((List.range (candidateFiles cfg walk).length).map
        (fun n => n + 1)).Pairwise (fun x y => x < y) := by
      apply List.Pairwise.map (fun n => n + 1)
        (fun a b hab => by simpa using Nat.succ_lt_succ hab)
      exact List.pairwise_lt_range _
    exact hpw.chain'

/-- Claim C4, counterexample: scanning two same-size files, the Hashing-phase
event sequence reports `current` values 2, 1, 2: the transition event's
`current = total` is followed by a fall back to 1, so successive `current`
values are not monotonically nondecreasing. -/
theorem C4_counterexample :
    (scan_events defaultConfig walkSameSize).map ScanProgress.current
      = [2, 1, 2] ∧
    decide (List.Chain' (fun x y => x ≤ y)
      ((scan_events defaultConfig walkSameSize).map ScanProgress.current))
      = false := by
  have h1 : (scan_events defaultConfig walkSameSize).map ScanProgress.current
      = [2, 1, 2] := by decide
  refine ⟨h1, ?_⟩
  rw [h1]
  apply decide_eq_false
  intro hch
  rw [List.chain'_cons] at hch
  exact absurd hch.1 (by omega)

/- ------------------------------------------------------------------ -/
/- Claim C9                                                            -/
/- ------------------------------------------------------------------ -/

theorem mem_ancestorsList {p anc : List String} :
    anc ∈ ancestorsList p ↔ ∃ k, k ≤ p.length ∧ anc = p.take k := by
  unfold ancestorsList
  rw [List.mem_map]
  constructor
  · rintro ⟨k, hk, rfl⟩
    rw [List.mem_reverse, List.mem_range] at hk
    exact ⟨k, by omega, rfl⟩
  · rintro ⟨k, hk, rfl⟩
    refine ⟨k, ?_, rfl⟩
    rw [List.mem_reverse, List.mem_range]
    omega

/-- Claim C9: `is_critical_file p` is true exactly when the basename of `p`
itself or of one of its ancestor prefixes belongs to the fixed sensitive-name
list; and every emitted group member's `is_critical` flag is exactly the
classification of its own path, so both members of a duplicate pair under a
sensitive directory carry the flag. -/
theorem C9_critical_classification (p : List String) :
    (is_critical_file p = true ↔
      ∃ k, k ≤ p.length ∧ basenameCritical (p.take k) = true) ∧
    (∀ (sha : List Nat → List Nat) (cfg : ScanConfig)
      (walk : List (Option Entry)) (g : List FileInfo) (f : FileInfo),
      g ∈ scanGroups sha cfg walk → f ∈ g →
      f.is_critical = is_critical_file f.path) := by
  constructor
  · cases p with
    | nil =>
      constructor
      · intro h
        exact absurd h (by decide)
      · rintro ⟨k, hk, hb⟩
        have hk0 : k = 0 := by
          have : k ≤ 0 := by simpa using hk
          omega
        subst hk0
        exact absurd hb (by decide)
    | cons x l =>
      have hne : x :: l ≠ ([] : List String) := by simp
      have hgl : (x :: l).getLast? = some ((x :: l).getLast hne) :=
        List.getLast?_eq_getLast _ hne
      have hlhs : is_critical_file (x :: l) =
          (critical_files.contains ((x :: l).getLast hne) ||
            (ancestorsList (x :: l)).any (fun anc => basenameCritical anc)) := by
        unfold is_critical_file
        rw [hgl]
        show (if critical_files.contains ((x :: l).getLast hne) = true then true
            else (ancestorsList (x :: l)).any fun anc => basenameCritical anc)
          = (critical_files.contains ((x :: l).getLast hne) ||
            (ancestorsList (x :: l)).any fun anc => basenameCritical anc)
        rcases bool_false_or_true
            (critical_files.contains ((x :: l).getLast hne)) with hc | hc
        · rw [if_neg (by simp only [hc]; decide), hc, Bool.false_or]
        · rw [if_pos hc, hc, Bool.true_or]
      rw [hlhs]
      constructor
      · intro h
        rcases (Bool.or_eq_true _ _).mp h with hc | hany
        · refine ⟨(x :: l).length, Nat.le_refl _, ?_⟩
          rw [List.take_length]
          unfold basenameCritical
          rw [hgl]
          exact hc
        · rcases List.any_eq_true.mp hany with ⟨anc, hanc, hb⟩
          rcases mem_ancestorsList.mp hanc with ⟨k, hk, rfl⟩
          exact ⟨k, hk, hb⟩
      · rintro ⟨k, hk, hb⟩
        apply (Bool.or_eq_true _ _).mpr
        right
        exact List.any_eq_true.mpr
          ⟨(x :: l).take k, mem_ancestorsList.mpr ⟨k, hk, rfl⟩, hb⟩
  · intro sha cfg walk g f hg hf
    rcases mem_scanGroups_elim hg with ⟨sz, h, _, _, hgeq⟩
    rw [hgeq] at hf
    rcases List.mem_map.mp hf with ⟨q, _, rfl⟩
    rfl

/-- Witness for C9: the path of a file at `~/.ssh/config` classifies as
critical (its ancestor basename `.ssh` is in the list), and the `is_critical`
flag of a concrete emitted group member equals the classification of its
path. -/
theorem C9_critical_classification_witness :
    is_critical_file sshPath = true ∧
    (toFileInfo 1 entX).is_critical
      = is_critical_file (toFileInfo 1 entX).path := by
  constructor
  · exact (C9_critical_classification sshPath).1.mpr ⟨2, by decide, by decide⟩
  · exact (C9_critical_classification sshPath).2 shaI defaultConfig walkPair
      [toFileInfo 1 entX, toFileInfo 1 entY] (toFileInfo 1 entX)
      (by decide) (by decide)

/-- Witness for C3 at a concrete scan: the result is the `Ok` value. -/
theorem C3_never_fails_witness :
    scan_directory shaI defaultConfig walkPair
      = Except.ok (scanGroups shaI defaultConfig walkPair) :=
  (C3_never_fails shaI defaultConfig walkPair).1

/-- Witness for C4 at a concrete scan: every event carries the fixed total. -/
theorem C4_progress_events_witness :
    (scan_events defaultConfig walkSameSize).map ScanProgress.total
      = List.replicate (scan_events defaultConfig walkSameSize).length
          (total_files defaultConfig walkSameSize) :=
  (C4_progress_events defaultConfig walkSameSize).1
